import Mathlib

/-!
Verification of the language-negotiation core of the stm32-rust-lessons site.

This file gives a shallow embedding of `src/utils/languages.ts` together with
`src/utils/validators.ts` and the language configuration of
`src/content/config.ts`, plus the older uncached `getDefaultLanguage` variant
kept in the repository, and proves properties of the scanner
(`getAvailableLanguages`) and the negotiator (`getDefaultLanguage`, modelled
here as `resolveLanguage`).

Modelling conventions:
* JavaScript strings are modelled as `List Char`; `chars s` converts a Lean
  string literal.  All string helpers used by the source (`split` on a
  one-character separator, `trim`, `toLowerCase`) are embedded as structural
  functions on `List Char` so that every definition evaluates in the kernel.
  `toLowerCase`/`trim` are embedded with their ASCII behaviour, which agrees
  with JavaScript on every string appearing in this code's domain.
* JavaScript numbers produced by `Number.parseFloat` are modelled by `JsNum`:
  `nan`, the two infinities, or an exact rational (`parseFloat` results are
  always exactly representable here since we keep full precision; IEEE-754
  rounding never affects the comparisons performed by this code on its
  language-quality domain).
* The array comparator `(a, b) => b.quality - a.quality` is embedded by its
  sign test `jsGtB b.quality a.quality` (the ECMAScript `SortCompare` step
  maps a NaN comparator result to `+0`, so only the sign of the difference is
  observable).  `Array.prototype.sort` is stable (ES2019); for a consistent
  comparator the stable sorted permutation is unique, and we embed it as the
  stable insertion sort `jsSortWith`.
* The scanner's `console.warn` / `console.error` calls are modelled as an
  explicit log trace (`LogEvent`), and its module-level cache as explicit
  state passing (`getAvailableLanguagesSt`).
* `lesson.id.split('/')[0]` together with the JavaScript truthiness test
  `if (lang)` is embedded by taking the head of the split (always defined)
  and testing it against the empty string.
-/

namespace LangCore

/-- Convert a Lean string literal to the `List Char` representation used for
JavaScript strings throughout this development. -/
def chars (s : String) : List Char := s.toList

/-- Embedding of JavaScript `s.split(sep)` for a one-character separator
(the source only ever splits on `','`, `';'`, `'='`, `'-'` and `'/'`).
JavaScript returns `[""]` on the empty string, and keeps empty fields. -/
def splitOnChar (sep : Char) : List Char → List (List Char)
  | [] => [[]]
  | c :: cs =>
    if c = sep then
      [] :: splitOnChar sep cs
    else
      match splitOnChar sep cs with
      | [] => [[c]]
      | r :: rs => (c :: r) :: rs

/-- Embedding of JavaScript `String.prototype.trim` (ASCII whitespace;
JavaScript also strips some Unicode space characters, which never occur in
this code's domain). -/
def jsTrim (cs : List Char) : List Char :=
  ((cs.dropWhile Char.isWhitespace).reverse.dropWhile Char.isWhitespace).reverse

/-- Embedding of JavaScript `String.prototype.toLowerCase` (ASCII letters;
JavaScript also lowercases non-ASCII letters, which never occur in this
code's domain). -/
def jsToLower (cs : List Char) : List Char :=
  cs.map fun c => if 'A' ≤ c ∧ c ≤ 'Z' then Char.ofNat (c.toNat + 32) else c

/-- A JavaScript number as produced by `Number.parseFloat`: NaN, an infinity,
or a finite value (kept as an exact rational). -/
inductive JsNum where
  | nan : JsNum
  | inf : JsNum
  | ninf : JsNum
  | num : ℚ → JsNum
deriving DecidableEq

/-- Numeric value of a list of decimal digit characters. -/
def digitsToNat (ds : List Char) : ℕ :=
  ds.foldl (fun n c => 10 * n + (c.toNat - 48)) 0

/-- Embedding of JavaScript `Number.parseFloat`: skip leading whitespace,
parse the longest prefix that is a `StrDecimalLiteral` (optional sign,
`Infinity` or digits with an optional fraction and exponent), and return NaN
if there is none.  The finite result is represented exactly. -/
def jsParseFloat (s : List Char) : JsNum :=
  let cs0 := s.dropWhile Char.isWhitespace
  let neg : Bool := match cs0 with
    | '-' :: _ => true
    | _ => false
  let cs := match cs0 with
    | '+' :: rest => rest
    | '-' :: rest => rest
    | _ => cs0
  if (chars "Infinity").isPrefixOf cs then
    if neg then JsNum.ninf else JsNum.inf
  else
    let ip := cs.takeWhile Char.isDigit
    let rest1 := cs.dropWhile Char.isDigit
    let fp := match rest1 with
      | '.' :: r => r.takeWhile Char.isDigit
      | _ => []
    let rest2 := match rest1 with
      | '.' :: r => r.dropWhile Char.isDigit
      | _ => rest1
    if ip.isEmpty && fp.isEmpty then JsNum.nan
    else
      let mant : ℕ := digitsToNat (ip ++ fp)
      let e : ℤ := match rest2 with
        | c :: r =>
          if c = 'e' ∨ c = 'E' then
            let esign : ℤ := match r with
              | '-' :: _ => -1
              | _ => 1
            let r2 := match r with
              | '+' :: rr => rr
              | '-' :: rr => rr
              | _ => r
            let eds := r2.takeWhile Char.isDigit
            if eds.isEmpty then 0 else esign * (digitsToNat eds : ℤ)
          else 0
        | [] => 0
      let sgn : ℤ := if neg then -1 else 1
      JsNum.num (mkRat (sgn * (mant : ℤ) * 10 ^ e.toNat)
                       (10 ^ fp.length * 10 ^ (-e).toNat))

/-- Sign test of the JavaScript subtraction `x - y`: `true` iff `x - y > 0`.
This is the only aspect of the sort comparator `(a, b) => b.quality - a.quality`
that ECMAScript's `SortCompare` observes (a NaN result is mapped to `+0`). -/
def jsGtB : JsNum → JsNum → Bool
  | JsNum.nan, _ => false
  | _, JsNum.nan => false
  | JsNum.inf, JsNum.inf => false
  | JsNum.inf, _ => true
  | JsNum.ninf, _ => false
  | JsNum.num _, JsNum.inf => false
  | JsNum.num _, JsNum.ninf => true
  | JsNum.num a, JsNum.num b => decide (b < a)

/-- Stable insertion of `x` into `l` for a JavaScript sort comparator:
`pos x y = true` means the comparator puts `x` strictly after `y`
(comparator value `> 0`); otherwise `x` stays before `y`. -/
def jsInsert (pos : α → α → Bool) (x : α) : List α → List α
  | [] => [x]
  | y :: ys => if pos x y then y :: jsInsert pos x ys else x :: y :: ys

/-- Embedding of the stable `Array.prototype.sort` (ES2019) for a comparator
described by its positivity test `pos`: a stable insertion sort.  For a
consistent comparator this is the unique stable sorted permutation that
ECMAScript prescribes. -/
def jsSortWith (pos : α → α → Bool) : List α → List α
  | [] => []
  | x :: xs => jsInsert pos x (jsSortWith pos xs)

/-- Strict code-unit lexicographic comparison of JavaScript strings; on the
language codes handled by this program it is exactly the sign of
`a.localeCompare(b)` (all codes are plain lowercase ASCII). -/
def listLtB : List Char → List Char → Bool
  | [], [] => false
  | [], _ :: _ => true
  | _ :: _, [] => false
  | a :: as, b :: bs =>
    if a < b then true
    else if b < a then false
    else listLtB as bs

/-! Configuration from `src/content/config.ts` (`config.languages`) and
`src/constants.ts`. -/

/-- `config.languages.supported` = `['en', 'es', 'uk', 'fr', 'de']`. -/
def SUPPORTED_LANGUAGES : List (List Char) :=
  [chars "en", chars "es", chars "uk", chars "fr", chars "de"]

/-- `config.languages.default` = `'en'` (exported as `DEFAULT_LANGUAGE`). -/
def DEFAULT_LANGUAGE : List Char := chars "en"

/-- Embedding of `validateLanguage` from `src/utils/validators.ts`:
`SUPPORTED_LANGUAGES.includes(lang)`. -/
def validateLanguage (lang : List Char) : Bool :=
  SUPPORTED_LANGUAGES.contains lang

/-! The scanner `getAvailableLanguages` from `src/utils/languages.ts`.
Its `console.warn` / `console.error` calls are modelled as a log trace. -/

/-- Severity of a console diagnostic emitted by the scanner. -/
inductive LogLevel where
  | warn : LogLevel
  | error : LogLevel
deriving DecidableEq

/-- One console diagnostic (severity and message). -/
structure LogEvent where
  level : LogLevel
  message : List Char
deriving DecidableEq

/-- Message of the `console.warn` call for an unsupported language candidate. -/
def warnUnsupportedMsg (lang : List Char) : List Char :=
  chars "[getAvailableLanguages] Unsupported language detected: " ++ lang ++
    chars ". Supported languages: " ++
    List.intercalate (chars ", ") SUPPORTED_LANGUAGES

/-- Message of the `console.error` call for the empty-result fallback. -/
def noLanguagesMsg : List Char :=
  chars "[getAvailableLanguages] No languages detected in content collections, falling back to default"

/-- One iteration of the `lessons.forEach` body of `getAvailableLanguages`:
take the segment of the lesson id before the first `'/'`; skip it when empty
(JavaScript truthiness of `lang`); warn and skip it when it fails
`validateLanguage`; otherwise add it to the accumulated set (the JavaScript
`Set` is modelled as a duplicate-free list in insertion order). -/
def scanLesson (acc : List (List Char) × List LogEvent) (id : List Char) :
    List (List Char) × List LogEvent :=
  let lang := (splitOnChar '/' id).headD []
  if lang = [] then acc
  else if validateLanguage lang then
    (if acc.1.contains lang then acc.1 else acc.1 ++ [lang], acc.2)
  else
    (acc.1, acc.2 ++ [⟨LogLevel.warn, warnUnsupportedMsg lang⟩])

/-- Embedding of the body of `getAvailableLanguages` (the computation run on a
cache miss): scan all lesson ids, sort the collected codes with
`(a, b) => a.localeCompare(b)` (equal on this domain to code-unit order), and
fall back to `[DEFAULT_LANGUAGE]` with a `console.error` when nothing was
collected.  The external content store is modelled by the `lessonIds`
argument; the returned trace lists the console diagnostics emitted. -/
def getAvailableLanguagesCompute (lessonIds : List (List Char)) :
    List (List Char) × List LogEvent :=
  let scanned := lessonIds.foldl scanLesson ([], [])
  let sorted := jsSortWith (fun a b => listLtB b a) scanned.1
  if sorted = [] then
    ([DEFAULT_LANGUAGE], scanned.2 ++ [⟨LogLevel.error, noLanguagesMsg⟩])
  else
    (sorted, scanned.2)

/-- Embedding of `getAvailableLanguages` including its module-level
`cachedLanguages` cache, as explicit state passing: given the cache before the
call and the content store, return the result, the cache after the call, and
the console diagnostics emitted by this call.  On a cache hit the function
returns immediately (in particular the content store is not read). -/
def getAvailableLanguagesSt (cache : Option (List (List Char)))
    (lessonIds : List (List Char)) :
    List (List Char) × Option (List (List Char)) × List LogEvent :=
  match cache with
  | some c => (c, some c, [])
  | none =>
    ((getAvailableLanguagesCompute lessonIds).1,
     some (getAvailableLanguagesCompute lessonIds).1,
     (getAvailableLanguagesCompute lessonIds).2)

/-! The negotiator: `matchLanguage`, `getLanguageFromHeader`,
`getLanguageFromBrowser` and `getDefaultLanguage` from
`src/utils/languages.ts`. -/

/-- Embedding of `matchLanguage`: reduce `code` to its base subtag (text
before the first `'-'`), lowercase it, and return the first member of
`availableLanguages` equal to it. -/
def matchLanguage (code : List Char) (availableLanguages : List (List Char)) :
    Option (List Char) :=
  let cleanCode := jsToLower ((splitOnChar '-' code).headD [])
  availableLanguages.find? (fun lang => lang == cleanCode)

/-- A parsed Accept-Language entry: the (trimmed) tag and its quality. -/
structure PrefEntry where
  code : List Char
  quality : JsNum
deriving DecidableEq

/-- Embedding of the `.map` body of `getLanguageFromHeader`:
`const [code, q] = lang.split(';')` followed by
`quality: q ? Number.parseFloat(q.split('=')[1]) : 1`.  A missing or empty
(`""` is falsy) parameter part yields quality `1`; otherwise the text after
the first `'='` is fed to `parseFloat`, and a missing `'='` part means
`parseFloat(undefined)`, which is NaN. -/
def parseEntry (lang : List Char) : PrefEntry :=
  let parts := splitOnChar ';' lang
  let code := parts.headD []
  match parts[1]? with
  | none => ⟨jsTrim code, JsNum.num 1⟩
  | some q =>
    if q = [] then ⟨jsTrim code, JsNum.num 1⟩
    else
      ⟨jsTrim code,
        match (splitOnChar '=' q)[1]? with
        | none => JsNum.nan
        | some v => jsParseFloat v⟩

/-- The `header.split(',').map(...)` phase of `getLanguageFromHeader`. -/
def parseAcceptLanguage (header : List Char) : List PrefEntry :=
  (splitOnChar ',' header).map parseEntry

/-- Positivity test of the comparator `(a, b) => b.quality - a.quality`
used by `getLanguageFromHeader`'s sort. -/
def qualityPos (a b : PrefEntry) : Bool :=
  jsGtB b.quality a.quality

/-- The `.sort((a, b) => b.quality - a.quality)` phase of
`getLanguageFromHeader`. -/
def sortByQualityDesc : List PrefEntry → List PrefEntry :=
  jsSortWith qualityPos

/-- Embedding of `getLanguageFromHeader`: parse, sort by quality descending,
and return the first match of `matchLanguage` scanning the sorted entries. -/
def getLanguageFromHeader (header : List Char)
    (availableLanguages : List (List Char)) : Option (List Char) :=
  (sortByQualityDesc (parseAcceptLanguage header)).findSome?
    (fun lang => matchLanguage lang.code availableLanguages)

/-- Embedding of `getLanguageFromBrowser`: scan the platform locale hints
(`navigator.languages` followed by `navigator.language`; an absent navigator
is the empty list) and return the first `matchLanguage` hit. -/
def getLanguageFromBrowser (navLanguages : List (List Char))
    (availableLanguages : List (List Char)) : Option (List Char) :=
  navLanguages.findSome? (fun lang => matchLanguage lang availableLanguages)

/-- Embedding of `getDefaultLanguage` (the negotiator `resolveLanguage` of the
specification), with the scanner result passed explicitly as
`availableLanguages`: use the Accept-Language header when it is truthy
(non-null and non-empty), then the platform hints, then `DEFAULT_LANGUAGE`. -/
def resolveLanguage (acceptLanguageHeader : Option (List Char))
    (navLanguages : List (List Char))
    (availableLanguages : List (List Char)) : List Char :=
  let serverMatch :=
    match acceptLanguageHeader with
    | none => none
    | some h => if h = [] then none else getLanguageFromHeader h availableLanguages
  match serverMatch with
  | some m => m
  | none =>
    match getLanguageFromBrowser navLanguages availableLanguages with
    | some m => m
    | none => DEFAULT_LANGUAGE

/-! The older, uncached `getDefaultLanguage` variant kept in the repository
(`src/unnamed/part_004`): its inline `findMatch` helper and the inline
Accept-Language parsing of its step 1, embedded separately for the
equivalence claim. -/

/-- Embedding of the `findMatch` closure of the older `getDefaultLanguage`:
`code.split('-')[0].toLowerCase()` looked up in `availableLanguages`. -/
def oldFindMatch (code : List Char) (availableLanguages : List (List Char)) :
    Option (List Char) :=
  let cleanCode := jsToLower ((splitOnChar '-' code).headD [])
  availableLanguages.find? (fun lang => lang == cleanCode)

/-- Embedding of the `.map` body of the older variant's inline header
parsing: `quality: q ? parseFloat(q.split('=')[1]) : 1.0`. -/
def oldParseEntry (lang : List Char) : PrefEntry :=
  let parts := splitOnChar ';' lang
  let code := parts.headD []
  match parts[1]? with
  | none => ⟨jsTrim code, JsNum.num 1⟩
  | some q =>
    if q = [] then ⟨jsTrim code, JsNum.num 1⟩
    else
      ⟨jsTrim code,
        match (splitOnChar '=' q)[1]? with
        | none => JsNum.nan
        | some v => jsParseFloat v⟩

/-- Embedding of step 1 of the older `getDefaultLanguage`: split the header
on commas, parse each entry, sort by quality descending, and return the first
`findMatch` hit. -/
def oldHeaderMatch (header : List Char)
    (availableLanguages : List (List Char)) : Option (List Char) :=
  (jsSortWith qualityPos ((splitOnChar ',' header).map oldParseEntry)).findSome?
    (fun lang => oldFindMatch lang.code availableLanguages)




/-! Generic facts about the stable-sort embedding `jsSortWith`. -/

theorem jsInsert_perm (pos : α → α → Bool) (x : α) :
    ∀ l : List α, List.Perm (jsInsert pos x l) (x :: l) := by
  intro l
  induction l with
  | nil => simp [jsInsert]
  | cons y ys ih =>
    by_cases h : pos x y = true
    · rw [jsInsert, if_pos h]
      exact (ih.cons y).trans (List.Perm.swap x y ys)
    · rw [jsInsert, if_neg h]

theorem jsSortWith_perm (pos : α → α → Bool) :
    ∀ l : List α, List.Perm (jsSortWith pos l) l := by
  intro l
  induction l with
  | nil => simp [jsSortWith]
  | cons x xs ih =>
    exact (jsInsert_perm pos x (jsSortWith pos xs)).trans (ih.cons x)

theorem mem_jsSortWith {pos : α → α → Bool} {a : α} {l : List α} :
    a ∈ jsSortWith pos l ↔ a ∈ l :=
  (jsSortWith_perm pos l).mem_iff

theorem mem_jsInsert {pos : α → α → Bool} {a x : α} {l : List α} :
    a ∈ jsInsert pos x l ↔ a = x ∨ a ∈ l := by
  rw [(jsInsert_perm pos x l).mem_iff, List.mem_cons]

theorem jsSortWith_nodup {pos : α → α → Bool} {l : List α} (h : l.Nodup) :
    (jsSortWith pos l).Nodup :=
  (jsSortWith_perm pos l).nodup_iff.mpr h

theorem jsInsert_pairwise {pos : α → α → Bool} {P : α → Prop}
    (total : ∀ a b, P a → P b → pos a b = false ∨ pos b a = false)
    (tr : ∀ a b c, P a → P b → P c →
      pos a b = false → pos b c = false → pos a c = false)
    {x : α} {l : List α} (hx : P x) (hl : ∀ a ∈ l, P a)
    (hs : l.Pairwise (fun a b => pos a b = false)) :
    (jsInsert pos x l).Pairwise (fun a b => pos a b = false) := by
  induction l with
  | nil => simp [jsInsert]
  | cons y ys ih =>
    rcases List.pairwise_cons.mp hs with ⟨hy, hys⟩
    by_cases h : pos x y = true
    · rw [jsInsert, if_pos h]
      refine List.pairwise_cons.mpr ⟨?_, ih (fun a ha => hl a (List.mem_cons_of_mem y ha)) hys⟩
      intro z hz
      rcases mem_jsInsert.mp hz with rfl | hz2
      · rcases total z y hx (hl y (List.mem_cons_self y ys)) with h1 | h2
        · exact absurd h1 (by simp [h])
        · exact h2
      · exact hy z hz2
    · rw [jsInsert, if_neg h]
      refine List.pairwise_cons.mpr ⟨?_, hs⟩
      intro z hz
      rcases List.mem_cons.mp hz with rfl | hz2
      · exact Bool.eq_false_iff.mpr h
      · exact tr x y z hx (hl y (List.mem_cons_self y ys)) (hl z (List.mem_cons_of_mem y hz2))
          (Bool.eq_false_iff.mpr h) (hy z hz2)

theorem jsSortWith_pairwise {pos : α → α → Bool} {P : α → Prop}
    (total : ∀ a b, P a → P b → pos a b = false ∨ pos b a = false)
    (tr : ∀ a b c, P a → P b → P c →
      pos a b = false → pos b c = false → pos a c = false) :
    ∀ {l : List α}, (∀ a ∈ l, P a) →
      (jsSortWith pos l).Pairwise (fun a b => pos a b = false) := by
  intro l
  induction l with
  | nil => intro _; simp [jsSortWith]
  | cons x xs ih =>
    intro hl
    rw [jsSortWith]
    exact jsInsert_pairwise total tr (hl x (List.mem_cons_self x xs))
      (fun a ha => hl a (List.mem_cons_of_mem x (mem_jsSortWith.mp ha)))
      (ih (fun a ha => hl a (List.mem_cons_of_mem x ha)))

theorem jsInsert_filter_neg {pos : α → α → Bool} {p : α → Bool} {x : α}
    (hx : p x = false) : ∀ l : List α, (jsInsert pos x l).filter p = l.filter p := by
  intro l
  induction l with
  | nil => simp [jsInsert, hx]
  | cons y ys ih =>
    by_cases h : pos x y = true
    · rw [jsInsert, if_pos h]
      by_cases hy : p y = true
      · rw [List.filter_cons_of_pos hy, List.filter_cons_of_pos hy, ih]
      · rw [List.filter_cons_of_neg (by simpa using hy),
          List.filter_cons_of_neg (by simpa using hy), ih]
    · rw [jsInsert, if_neg h, List.filter_cons_of_neg (by simp [hx])]

theorem jsInsert_filter_pos {pos : α → α → Bool} {p : α → Bool} {x : α}
    (hx : p x = true) :
    ∀ l : List α, (∀ y ∈ l, p y = true → pos x y = false) →
      (jsInsert pos x l).filter p = x :: l.filter p := by
  intro l
  induction l with
  | nil => intro _; simp [jsInsert, hx]
  | cons y ys ih =>
    intro hmov
    by_cases h : pos x y = true
    · have hpy : p y = false := by
        by_cases hy : p y = true
        · exact absurd (hmov y (List.mem_cons_self y ys) hy) (by simp [h])
        · simpa using hy
      rw [jsInsert, if_pos h, List.filter_cons_of_neg (by simp [hpy]),
        ih (fun z hz hp => hmov z (List.mem_cons_of_mem y hz) hp),
        List.filter_cons_of_neg (by simp [hpy])]
    · rw [jsInsert, if_neg h, List.filter_cons_of_pos hx]

theorem jsSortWith_filter_stable {pos : α → α → Bool} {p : α → Bool}
    (hp : ∀ a b, p a = true → p b = true → pos a b = false) :
    ∀ l : List α, (jsSortWith pos l).filter p = l.filter p := by
  intro l
  induction l with
  | nil => rfl
  | cons x xs ih =>
    by_cases hx : p x = true
    · rw [jsSortWith, jsInsert_filter_pos hx _ (fun y _ hy => hp x y hx hy), ih,
        List.filter_cons_of_pos hx]
    · rw [jsSortWith, jsInsert_filter_neg (by simpa using hx), ih,
        List.filter_cons_of_neg (by simpa using hx)]

theorem findSome?_eq_find?_bind (f : α → Option β) :
    ∀ l : List α, l.findSome? f = (l.find? (fun a => (f a).isSome)).bind f := by
  intro l
  induction l with
  | nil => rfl
  | cons x xs ih =>
    by_cases h : (f x).isSome = true
    · rcases Option.isSome_iff_exists.mp h with ⟨b, hb⟩
      simp [List.findSome?_cons, List.find?_cons_of_pos _ h, hb]
    · have hfx : f x = none := Option.not_isSome_iff_eq_none.mp (by simpa using h)
      simp [List.findSome?_cons, List.find?_cons_of_neg _ h, hfx, ih]



/-! Order facts about the code-unit comparison `listLtB`. -/

theorem listLtB_asymm : ∀ {a b : List Char}, listLtB a b = true → listLtB b a = false := by
  intro a
  induction a with
  | nil =>
    intro b h
    cases b with
    | nil => simp [listLtB] at h
    | cons y ys => simp [listLtB]
  | cons x xs ih =>
    intro b h
    cases b with
    | nil => simp [listLtB] at h
    | cons y ys =>
      by_cases hxy : x < y
      · simp [listLtB, hxy, lt_asymm hxy]
      · by_cases hyx : y < x
        · simp [listLtB, hxy, hyx] at h
        · simp only [listLtB, if_neg hxy, if_neg hyx] at h
          simp only [listLtB, if_neg hyx, if_neg hxy]
          exact ih h

theorem listLtB_trans :
    ∀ {a b c : List Char}, listLtB a b = true → listLtB b c = true → listLtB a c = true := by
  intro a
  induction a with
  | nil =>
    intro b c hab hbc
    cases b with
    | nil => simp [listLtB] at hab
    | cons y ys =>
      cases c with
      | nil => simp [listLtB] at hbc
      | cons z zs => simp [listLtB]
  | cons x xs ih =>
    intro b c hab hbc
    cases b with
    | nil => simp [listLtB] at hab
    | cons y ys =>
      cases c with
      | nil => simp [listLtB] at hbc
      | cons z zs =>
        by_cases h1 : x < y
        · by_cases h2 : y < z
          · simp [listLtB, lt_trans h1 h2]
          · by_cases h3 : z < y
            · simp [listLtB, h2, h3] at hbc
            · have hyz : y = z := le_antisymm (not_lt.mp h3) (not_lt.mp h2)
              subst hyz
              simp [listLtB, h1]
        · by_cases h1b : y < x
          · simp [listLtB, h1, h1b] at hab
          · have hxy : x = y := le_antisymm (not_lt.mp h1b) (not_lt.mp h1)
            subst hxy
            simp only [listLtB, if_neg (lt_irrefl x)] at hab
            by_cases h2 : x < z
            · simp [listLtB, h2]
            · by_cases h3 : z < x
              · simp [listLtB, h2, h3] at hbc
              · have hxz : x = z := le_antisymm (not_lt.mp h3) (not_lt.mp h2)
                subst hxz
                simp only [listLtB, if_neg (lt_irrefl x)] at hbc ⊢
                exact ih hab hbc

theorem listLtB_connex :
    ∀ {a b : List Char}, listLtB a b = false → listLtB b a = false → a = b := by
  intro a
  induction a with
  | nil =>
    intro b h1 _
    cases b with
    | nil => rfl
    | cons y ys => simp [listLtB] at h1
  | cons x xs ih =>
    intro b h1 h2
    cases b with
    | nil => simp [listLtB] at h2
    | cons y ys =>
      by_cases hxy : x < y
      · simp [listLtB, hxy] at h1
      · by_cases hyx : y < x
        · simp [listLtB, hyx, hxy] at h2
        · have hxy2 : x = y := le_antisymm (not_lt.mp hyx) (not_lt.mp hxy)
          subst hxy2
          simp only [listLtB, if_neg (lt_irrefl x)] at h1 h2
          rw [ih h1 h2]

theorem listLtB_le_trans {a b c : List Char} (h1 : listLtB b a = false)
    (h2 : listLtB c b = false) : listLtB c a = false := by
  by_contra h
  have hca : listLtB c a = true := Bool.eq_true_of_not_eq_false h
  by_cases hab : listLtB a b = true
  · have := listLtB_trans hca hab
    simp [this] at h2
  · have hab2 : listLtB a b = false := Bool.eq_false_iff.mpr hab
    have : a = b := listLtB_connex hab2 h1
    subst this
    simp [hca] at h2

/-! Order facts about the comparator sign test `jsGtB` on non-NaN values. -/

theorem jsGtB_total {x y : JsNum} (hx : x ≠ JsNum.nan) (hy : y ≠ JsNum.nan) :
    jsGtB x y = false ∨ jsGtB y x = false := by
  cases x with
  | nan => exact absurd rfl hx
  | inf =>
    cases y with
    | nan => exact absurd rfl hy
    | inf => exact Or.inl rfl
    | ninf => exact Or.inr rfl
    | num b => exact Or.inr rfl
  | ninf =>
    cases y with
    | nan => exact absurd rfl hy
    | inf => exact Or.inl rfl
    | ninf => exact Or.inl rfl
    | num b => exact Or.inl rfl
  | num a =>
    cases y with
    | nan => exact absurd rfl hy
    | inf => exact Or.inl rfl
    | ninf => exact Or.inr rfl
    | num b =>
      rcases le_or_lt a b with h | h
      · exact Or.inl (by simpa [jsGtB] using decide_eq_false (not_lt.mpr h))
      · exact Or.inr (by simpa [jsGtB] using decide_eq_false (lt_asymm h))

theorem jsGtB_le_trans {x y z : JsNum} (hx : x ≠ JsNum.nan) (hy : y ≠ JsNum.nan)
    (hz : z ≠ JsNum.nan) (h1 : jsGtB y x = false) (h2 : jsGtB z y = false) :
    jsGtB z x = false := by
  cases x <;> cases y <;> cases z <;> simp_all [jsGtB] <;> linarith

/-! Membership facts about the negotiator. -/

theorem matchLanguage_mem {code m : List Char} {avail : List (List Char)}
    (h : matchLanguage code avail = some m) : m ∈ avail := by
  unfold matchLanguage at h
  exact List.mem_of_find?_eq_some h

theorem getLanguageFromHeader_mem {header m : List Char} {avail : List (List Char)}
    (h : getLanguageFromHeader header avail = some m) : m ∈ avail := by
  unfold getLanguageFromHeader at h
  rcases List.exists_of_findSome?_eq_some h with ⟨e, _, he⟩
  exact matchLanguage_mem he

theorem getLanguageFromBrowser_mem {m : List Char} {hints avail : List (List Char)}
    (h : getLanguageFromBrowser hints avail = some m) : m ∈ avail := by
  unfold getLanguageFromBrowser at h
  rcases List.exists_of_findSome?_eq_some h with ⟨e, _, he⟩
  exact matchLanguage_mem he

theorem resolve_mem_or_default (signal : Option (List Char))
    (hints avail : List (List Char)) :
    resolveLanguage signal hints avail ∈ avail ∨
      resolveLanguage signal hints avail = DEFAULT_LANGUAGE := by
  rcases signal with _ | s
  · cases hb : getLanguageFromBrowser hints avail with
    | none => right; simp [resolveLanguage, hb]
    | some m =>
      left
      simpa [resolveLanguage, hb] using getLanguageFromBrowser_mem hb
  · by_cases hs : s = []
    · subst hs
      cases hb : getLanguageFromBrowser hints avail with
      | none => right; simp [resolveLanguage, hb]
      | some m =>
        left
        simpa [resolveLanguage, hb] using getLanguageFromBrowser_mem hb
    · cases hh : getLanguageFromHeader s avail with
      | none =>
        cases hb : getLanguageFromBrowser hints avail with
        | none => right; simp [resolveLanguage, hs, hh, hb]
        | some m =>
          left
          simpa [resolveLanguage, hs, hh, hb] using getLanguageFromBrowser_mem hb
      | some m =>
        left
        simpa [resolveLanguage, hs, hh] using getLanguageFromHeader_mem hh

/-! Facts about the scanner fold. -/

theorem scanLesson_eq (acc : List (List Char) × List LogEvent) (id : List Char) :
    scanLesson acc id =
      if (splitOnChar '/' id).headD [] = [] then acc
      else if validateLanguage ((splitOnChar '/' id).headD []) = true then
        (if acc.1.contains ((splitOnChar '/' id).headD []) then acc.1
         else acc.1 ++ [(splitOnChar '/' id).headD []], acc.2)
      else
        (acc.1,
         acc.2 ++ [⟨LogLevel.warn, warnUnsupportedMsg ((splitOnChar '/' id).headD [])⟩]) :=
  rfl

theorem scan_valid :
    ∀ (ids : List (List Char)) (acc : List (List Char) × List LogEvent),
      (∀ l ∈ acc.1, validateLanguage l = true) →
      ∀ l ∈ (List.foldl scanLesson acc ids).1, validateLanguage l = true := by
  intro ids
  induction ids with
  | nil => intro acc h; simpa using h
  | cons id ids ih =>
    intro acc h
    rw [List.foldl_cons]
    refine ih _ ?_
    intro l hl
    rw [scanLesson_eq] at hl
    split_ifs at hl with h1 h2 h3
    · exact h l hl
    · exact h l hl
    · rcases List.mem_append.mp hl with hl2 | hl2
      · exact h l hl2
      · rw [List.mem_singleton.mp hl2]; exact h2
    · exact h l hl

theorem scan_nodup :
    ∀ (ids : List (List Char)) (acc : List (List Char) × List LogEvent),
      acc.1.Nodup → (List.foldl scanLesson acc ids).1.Nodup := by
  intro ids
  induction ids with
  | nil => intro acc h; simpa using h
  | cons id ids ih =>
    intro acc h
    rw [List.foldl_cons]
    refine ih _ ?_
    rw [scanLesson_eq]
    split_ifs with h1 h2 h3
    · exact h
    · exact h
    · have hnm : (splitOnChar '/' id).headD [] ∉ acc.1 := by
        intro hmem
        exact h3 (List.elem_eq_true_of_mem hmem)
      rw [List.nodup_append]
      refine ⟨h, List.nodup_singleton _, ?_⟩
      intro a ha hb
      rw [List.mem_singleton.mp hb] at ha
      exact hnm ha
    · exact h

theorem scan_logs_mem :
    ∀ (ids : List (List Char)) (acc : List (List Char) × List LogEvent) (e : LogEvent),
      e ∈ acc.2 → e ∈ (List.foldl scanLesson acc ids).2 := by
  intro ids
  induction ids with
  | nil => intro acc e h; simpa using h
  | cons id ids ih =>
    intro acc e h
    rw [List.foldl_cons]
    refine ih _ _ ?_
    rw [scanLesson_eq]
    split_ifs with h1 h2 h3
    · exact h
    · exact h
    · exact h
    · exact List.mem_append_left _ h

theorem scan_warn_mem :
    ∀ (ids : List (List Char)) (acc : List (List Char) × List LogEvent)
      (id lang : List Char), id ∈ ids → (splitOnChar '/' id).headD [] = lang →
      lang ≠ [] → validateLanguage lang = false →
      LogEvent.mk LogLevel.warn (warnUnsupportedMsg lang) ∈
        (List.foldl scanLesson acc ids).2 := by
  intro ids
  induction ids with
  | nil => intro acc id lang hmem; simp at hmem
  | cons jd ids ih =>
    intro acc id lang hmem hlang hne hval
    rcases List.mem_cons.mp hmem with rfl | hmem2
    · rw [List.foldl_cons]
      apply scan_logs_mem
      rw [scanLesson_eq]
      simp only [hlang]
      rw [if_neg hne, if_neg (by simp [hval])]
      exact List.mem_append_right _ (List.mem_singleton.mpr rfl)
    · rw [List.foldl_cons]
      exact ih _ id lang hmem2 hlang hne hval

theorem scan_none_of_all_invalid :
    ∀ (ids : List (List Char)) (acc : List (List Char) × List LogEvent),
      (∀ id ∈ ids, validateLanguage ((splitOnChar '/' id).headD []) = false) →
      (List.foldl scanLesson acc ids).1 = acc.1 := by
  intro ids
  induction ids with
  | nil => intro acc _; rfl
  | cons id ids ih =>
    intro acc h
    rw [List.foldl_cons]
    rw [ih _ (fun jd hjd => h jd (List.mem_cons_of_mem id hjd))]
    rw [scanLesson_eq]
    have hv := h id (List.mem_cons_self id ids)
    by_cases h1 : (splitOnChar '/' id).headD [] = []
    · rw [if_pos h1]
    · rw [if_neg h1, if_neg (by rw [hv]; exact Bool.false_ne_true)]

/-! Facts about the scanner result. -/

theorem compute_valid (lessonIds : List (List Char)) :
    ∀ l ∈ (getAvailableLanguagesCompute lessonIds).1, validateLanguage l = true := by
  intro l hl
  simp only [getAvailableLanguagesCompute] at hl
  split_ifs at hl with hs
  · rw [List.mem_singleton.mp hl]
    decide
  · exact scan_valid lessonIds ([], []) (by simp) l (mem_jsSortWith.mp hl)

theorem validateLanguage_iff_mem {l : List Char} :
    validateLanguage l = true ↔ l ∈ SUPPORTED_LANGUAGES := by
  constructor
  · intro h
    exact List.elem_iff.mp h
  · intro h
    exact List.elem_eq_true_of_mem h

theorem compute_pairwise (lessonIds : List (List Char)) :
    (getAvailableLanguagesCompute lessonIds).1.Pairwise
      (fun a b => listLtB a b = true) := by
  simp only [getAvailableLanguagesCompute]
  split_ifs with hs
  · simp
  · have total : ∀ a b : List Char, True → True →
        listLtB b a = false ∨ listLtB a b = false := by
      intro a b _ _
      by_cases hab : listLtB b a = true
      · exact Or.inr (listLtB_asymm hab)
      · exact Or.inl (Bool.eq_false_iff.mpr hab)
    have tr : ∀ a b c : List Char, True → True → True →
        listLtB b a = false → listLtB c b = false → listLtB c a = false := by
      intro a b c _ _ _ h1 h2
      exact listLtB_le_trans h1 h2
    have hpw := @jsSortWith_pairwise (List Char) (fun a b => listLtB b a)
      (fun _ => True) total tr
      ((List.foldl scanLesson ([], []) lessonIds).1) (fun a _ => trivial)
    have hnd : (jsSortWith (fun a b => listLtB b a)
        (List.foldl scanLesson ([], []) lessonIds).1).Nodup :=
      jsSortWith_nodup (scan_nodup lessonIds ([], []) (by simp))
    refine (hpw.and hnd).imp ?_
    intro a b hab
    by_cases h : listLtB a b = true
    · exact h
    · exact absurd (listLtB_connex (Bool.eq_false_iff.mpr h) hab.1) hab.2

/-! Claims. -/

/-- C1, counterexample: a content-item id whose first path segment `xx` is
not a supported language is dropped from the returned list, but — contrary
to the claim — a `console.warn` diagnostic IS emitted for it. -/
theorem C1_counterexample :
    (chars "xx") ∉ (getAvailableLanguagesCompute
        [chars "en/lessons/a", chars "xx/lessons/b"]).1 ∧
    (getAvailableLanguagesCompute [chars "en/lessons/a", chars "xx/lessons/b"]).2 =
      [⟨LogLevel.warn, warnUnsupportedMsg (chars "xx")⟩] := by
  decide

/-- C1 (amended): every candidate language code outside SupportedLanguages is
dropped from the scanner result, but not silently: a warn-severity console
diagnostic naming the candidate is emitted for each content-item id that
carries it. -/
theorem C1_amended_thm (lessonIds : List (List Char)) (lang : List Char)
    (hbad : validateLanguage lang = false) :
    lang ∉ (getAvailableLanguagesCompute lessonIds).1 ∧
    (∀ id ∈ lessonIds, (splitOnChar '/' id).headD [] = lang → lang ≠ [] →
      LogEvent.mk LogLevel.warn (warnUnsupportedMsg lang) ∈
        (getAvailableLanguagesCompute lessonIds).2) := by
  constructor
  · intro hmem
    have hval := compute_valid lessonIds lang hmem
    rw [hbad] at hval
    exact absurd hval (by simp)
  · intro id hid hlang hne
    simp only [getAvailableLanguagesCompute]
    split_ifs with hs
    · exact List.mem_append_left _
        (scan_warn_mem lessonIds ([], []) id lang hid hlang hne hbad)
    · exact scan_warn_mem lessonIds ([], []) id lang hid hlang hne hbad

/-- C1 witness: a concrete instance of the amended claim. -/
theorem C1_amended_witness :
    (chars "xx") ∉ (getAvailableLanguagesCompute [chars "xx/a"]).1 ∧
    LogEvent.mk LogLevel.warn (warnUnsupportedMsg (chars "xx")) ∈
      (getAvailableLanguagesCompute [chars "xx/a"]).2 := by
  have h := C1_amended_thm [chars "xx/a"] (chars "xx") (by decide)
  exact ⟨h.1, h.2 (chars "xx/a") (by decide) (by decide) (by decide)⟩

/-- C2: for every content store, the scanner returns a strictly ascending
(code-unit lexicographic), duplicate-free sequence whose every element is a
member of SupportedLanguages. -/
theorem C2_thm (lessonIds : List (List Char)) :
    (getAvailableLanguagesCompute lessonIds).1.Pairwise
      (fun a b => listLtB a b = true) ∧
    (getAvailableLanguagesCompute lessonIds).1.Nodup ∧
    ∀ l ∈ (getAvailableLanguagesCompute lessonIds).1, l ∈ SUPPORTED_LANGUAGES := by
  refine ⟨compute_pairwise lessonIds, ?_, ?_⟩
  · refine (compute_pairwise lessonIds).imp ?_
    intro a b hab heq
    rw [heq] at hab
    have := listLtB_asymm hab
    rw [this] at hab
    exact absurd hab (by simp)
  · intro l hl
    exact validateLanguage_iff_mem.mp (compute_valid lessonIds l hl)

/-- C3, counterexample: for the malformed quality `q=abc` parsing does not
throw, but the entry quality becomes NaN rather than exactly 1.0; the entry
keeps its original position in the quality sort instead of being promoted to
quality 1.0, which observably changes the negotiation result. -/
theorem C3_counterexample :
    (parseAcceptLanguage (chars "en;q=0.5,es;q=abc")).map PrefEntry.quality =
      [JsNum.num (mkRat 1 2), JsNum.nan] ∧
    getLanguageFromHeader (chars "en;q=0.5,es;q=abc") [chars "en", chars "es"] =
      some (chars "en") ∧
    getLanguageFromHeader (chars "en;q=0.5,es;q=1") [chars "en", chars "es"] =
      some (chars "es") := by
  decide

/-- C3 (amended): parsing never throws; an entry with no `;` parameter or an
empty parameter gets quality exactly 1, but an entry whose `q=` value is
non-numeric gets quality NaN — which the quality sort treats as comparing
equal to every other quality, so the entry keeps its original position —
rather than exactly 1.0. -/
theorem C3_amended_thm (s t : List Char) :
    ((splitOnChar ';' s)[1]? = none → (parseEntry s).quality = JsNum.num 1) ∧
    ((splitOnChar ';' s)[1]? = some [] → (parseEntry s).quality = JsNum.num 1) ∧
    ((parseEntry s).quality = JsNum.nan →
      jsSortWith qualityPos [parseEntry s, parseEntry t] =
        [parseEntry s, parseEntry t] ∧
      jsSortWith qualityPos [parseEntry t, parseEntry s] =
        [parseEntry t, parseEntry s]) := by
  refine ⟨?_, ?_, ?_⟩
  · intro h
    simp only [parseEntry, h]
  · intro h
    simp only [parseEntry, h]
    simp
  · intro h
    have h1 : ∀ x, jsGtB x JsNum.nan = false := fun x => by cases x <;> rfl
    have h2 : ∀ x, jsGtB JsNum.nan x = false := fun x => by cases x <;> rfl
    constructor
    · simp [jsSortWith, jsInsert, qualityPos, h, h1]
    · simp [jsSortWith, jsInsert, qualityPos, h, h2]

/-- C3 witness: concrete instances of the amended claim. -/
theorem C3_amended_witness :
    (parseEntry (chars "en")).quality = JsNum.num 1 ∧
    (parseEntry (chars "en;")).quality = JsNum.num 1 ∧
    jsSortWith qualityPos
        [parseEntry (chars "es;q=abc"), parseEntry (chars "en;q=0.9")] =
      [parseEntry (chars "es;q=abc"), parseEntry (chars "en;q=0.9")] := by
  refine ⟨(C3_amended_thm (chars "en") (chars "en")).1 (by decide),
    (C3_amended_thm (chars "en;") (chars "en")).2.1 (by decide),
    ((C3_amended_thm (chars "es;q=abc") (chars "en;q=0.9")).2.2 (by decide)).1⟩

/-- C4: the negotiator sorts parsed entries by quality descending (pairwise
non-positive comparator on the sorted list, given no NaN qualities), the sort
is stable (entries of equal quality keep their original relative order), the
scan returns the match of the first entry whose lowercased base subtag is in
the available list, and the specified concrete example resolves to "es". -/
theorem C4_thm (header : List Char) (avail : List (List Char)) :
    ((∀ e ∈ parseAcceptLanguage header, e.quality ≠ JsNum.nan) →
      (sortByQualityDesc (parseAcceptLanguage header)).Pairwise
        (fun a b => qualityPos a b = false)) ∧
    (∀ q : ℚ, (sortByQualityDesc (parseAcceptLanguage header)).filter
        (fun e => e.quality == JsNum.num q) =
      (parseAcceptLanguage header).filter (fun e => e.quality == JsNum.num q)) ∧
    (getLanguageFromHeader header avail =
      ((sortByQualityDesc (parseAcceptLanguage header)).find?
          (fun e => (matchLanguage e.code avail).isSome)).bind
        (fun e => matchLanguage e.code avail)) ∧
    resolveLanguage (some (chars "fr;q=0.5,es;q=0.9,en;q=0.7")) []
      [chars "en", chars "es", chars "uk"] = chars "es" := by
  refine ⟨?_, ?_, ?_, by decide⟩
  · intro hn
    exact @jsSortWith_pairwise PrefEntry qualityPos
      (fun e => e.quality ≠ JsNum.nan)
      (fun a b ha hb => jsGtB_total hb ha)
      (fun a b c ha hb hc h1 h2 => jsGtB_le_trans ha hb hc h1 h2)
      (parseAcceptLanguage header) hn
  · intro q
    refine jsSortWith_filter_stable ?_ _
    intro a b hpa hpb
    have ha : a.quality = JsNum.num q := by simpa using hpa
    have hb : b.quality = JsNum.num q := by simpa using hpb
    simp [qualityPos, ha, hb, jsGtB]
  · exact findSome?_eq_find?_bind _ _

/-- C4 witness: the concrete example instantiating every part of C4. -/
theorem C4_witness :
    (sortByQualityDesc
        (parseAcceptLanguage (chars "fr;q=0.5,es;q=0.9,en;q=0.7"))).Pairwise
      (fun a b => qualityPos a b = false) ∧
    (sortByQualityDesc
        (parseAcceptLanguage (chars "fr;q=0.5,es;q=0.9,en;q=0.7"))).filter
        (fun e => e.quality == JsNum.num (mkRat 1 2)) =
      (parseAcceptLanguage (chars "fr;q=0.5,es;q=0.9,en;q=0.7")).filter
        (fun e => e.quality == JsNum.num (mkRat 1 2)) ∧
    resolveLanguage (some (chars "fr;q=0.5,es;q=0.9,en;q=0.7")) []
      [chars "en", chars "es", chars "uk"] = chars "es" := by
  have h := C4_thm (chars "fr;q=0.5,es;q=0.9,en;q=0.7")
    [chars "en", chars "es", chars "uk"]
  exact ⟨h.1 (by decide), h.2.1 (mkRat 1 2), h.2.2.2⟩

/-- C5, counterexample: with a null signal, no hints and AvailableLanguages
["es"], the negotiator returns the default "en", which is not a member of
AvailableLanguages ∩ SupportedLanguages (it is not in AvailableLanguages). -/
theorem C5_counterexample :
    resolveLanguage none [] [chars "es"] = chars "en" ∧
    ¬ (resolveLanguage none [] [chars "es"] ∈ [chars "es"] ∧
       resolveLanguage none [] [chars "es"] ∈ SUPPORTED_LANGUAGES) := by
  decide

/-- C5 (amended): the negotiator returns a member of AvailableLanguages or
the DefaultLanguage; hence whenever AvailableLanguages ⊆ SupportedLanguages
(as scanner-produced lists are) the result is a member of SupportedLanguages,
but the default fallback need not be a member of AvailableLanguages. -/
theorem C5_amended_thm (signal : Option (List Char))
    (hints avail : List (List Char)) :
    (resolveLanguage signal hints avail ∈ avail ∨
      resolveLanguage signal hints avail = DEFAULT_LANGUAGE) ∧
    ((∀ l ∈ avail, l ∈ SUPPORTED_LANGUAGES) →
      resolveLanguage signal hints avail ∈ SUPPORTED_LANGUAGES) := by
  refine ⟨resolve_mem_or_default signal hints avail, ?_⟩
  intro hsub
  rcases resolve_mem_or_default signal hints avail with h | h
  · exact hsub _ h
  · rw [h]; decide

/-- C5 witness. -/
theorem C5_amended_witness :
    (resolveLanguage (some (chars "en-US")) [] [chars "en"] ∈ [chars "en"] ∨
      resolveLanguage (some (chars "en-US")) [] [chars "en"] = DEFAULT_LANGUAGE) ∧
    resolveLanguage (some (chars "en-US")) [] [chars "en"] ∈ SUPPORTED_LANGUAGES := by
  have h := C5_amended_thm (some (chars "en-US")) [] [chars "en"]
  exact ⟨h.1, h.2 (by decide)⟩

/-- C6: when the filtered scan result is empty the scanner logs an
error-severity diagnostic and returns exactly [DefaultLanguage]; in
particular this happens when every content-item id carries an unsupported
language prefix. -/
theorem C6_thm (lessonIds : List (List Char)) :
    ((List.foldl scanLesson ([], []) lessonIds).1 = [] →
      (getAvailableLanguagesCompute lessonIds).1 = [DEFAULT_LANGUAGE] ∧
      LogEvent.mk LogLevel.error noLanguagesMsg ∈
        (getAvailableLanguagesCompute lessonIds).2) ∧
    ((∀ id ∈ lessonIds, validateLanguage ((splitOnChar '/' id).headD []) = false) →
      (getAvailableLanguagesCompute lessonIds).1 = [DEFAULT_LANGUAGE]) := by
  have main : (List.foldl scanLesson ([], []) lessonIds).1 = [] →
      (getAvailableLanguagesCompute lessonIds).1 = [DEFAULT_LANGUAGE] ∧
      LogEvent.mk LogLevel.error noLanguagesMsg ∈
        (getAvailableLanguagesCompute lessonIds).2 := by
    intro hempty
    have hs : jsSortWith (fun a b => listLtB b a)
        (List.foldl scanLesson ([], []) lessonIds).1 = [] := by
      rw [hempty]
      rfl
    constructor
    · simp only [getAvailableLanguagesCompute]
      rw [if_pos hs]
    · simp only [getAvailableLanguagesCompute]
      rw [if_pos hs]
      exact List.mem_append_right _ (List.mem_singleton.mpr rfl)
  exact ⟨main,
    fun hall => (main (scan_none_of_all_invalid lessonIds ([], []) hall)).1⟩

/-- C6 witness. -/
theorem C6_witness :
    (getAvailableLanguagesCompute [chars "xx/a"]).1 = [DEFAULT_LANGUAGE] ∧
    LogEvent.mk LogLevel.error noLanguagesMsg ∈
      (getAvailableLanguagesCompute [chars "xx/a"]).2 := by
  exact (C6_thm [chars "xx/a"]).1 (by decide)

/-- C7: the negotiator is total: for every preference signal (null, empty or
arbitrary), hints and available list it returns a language code; when no
entry and no hint matches it returns exactly DefaultLanguage, and whenever
the available list is inside SupportedLanguages the result is a supported
code. -/
theorem C7_thm (signal : Option (List Char)) (hints avail : List (List Char)) :
    ((signal = none ∨ signal = some [] ∨
        getLanguageFromHeader (signal.getD []) avail = none) →
      (∀ hint ∈ hints, matchLanguage hint avail = none) →
      resolveLanguage signal hints avail = DEFAULT_LANGUAGE) ∧
    ((∀ l ∈ avail, l ∈ SUPPORTED_LANGUAGES) →
      resolveLanguage signal hints avail ∈ SUPPORTED_LANGUAGES) := by
  constructor
  · intro hserver hhints
    have hb : getLanguageFromBrowser hints avail = none := by
      unfold getLanguageFromBrowser
      exact List.findSome?_eq_none_iff.mpr hhints
    rcases signal with _ | sg
    · simp [resolveLanguage, hb]
    · by_cases hsg : sg = []
      · subst hsg
        simp [resolveLanguage, hb]
      · rcases hserver with h | h | h
        · exact absurd h (by simp)
        · exact absurd (Option.some.inj h) hsg
        · simp only [Option.getD_some] at h
          simp [resolveLanguage, hsg, hb, h]
  · intro hsub
    rcases resolve_mem_or_default signal hints avail with h | h
    · exact hsub _ h
    · rw [h]; decide

/-- C7 witness. -/
theorem C7_witness :
    resolveLanguage none [] [chars "en"] = DEFAULT_LANGUAGE ∧
    resolveLanguage none [] [chars "en"] ∈ SUPPORTED_LANGUAGES := by
  have h := C7_thm none [] [chars "en"]
  exact ⟨h.1 (Or.inl rfl) (by simp), h.2 (by decide)⟩

/-- C8: a second scanner call in the same process returns the value cached by
the first call — independently of the content store supplied to the second
call, so the store is not re-read — leaves the cache unchanged and emits no
diagnostics. -/
theorem C8_thm (ids1 ids2 : List (List Char)) :
    getAvailableLanguagesSt (getAvailableLanguagesSt none ids1).2.1 ids2 =
      ((getAvailableLanguagesSt none ids1).1,
       (getAvailableLanguagesSt none ids1).2.1, []) := rfl

/-- C9: an empty-string preference signal behaves identically to a
null/absent signal: the header-parsing step is skipped entirely. -/
theorem C9_thm (hints avail : List (List Char)) :
    resolveLanguage (some (chars "")) hints avail =
      resolveLanguage none hints avail := rfl

/-- C10: given identical available-language input, the header path of the
current negotiator (getLanguageFromHeader with matchLanguage) and the inline
header parsing of the older uncached getDefaultLanguage variant return the
same result on every Accept-Language header. -/
theorem C10_thm (header : List Char) (avail : List (List Char)) :
    oldHeaderMatch header avail = getLanguageFromHeader header avail := rfl

end LangCore
